import Mathlib

set_option maxRecDepth 10000

/-!
Verification of the QA_System repository (src/app/qa.py, src/app/analysis.py)
against its natural-language specification.

The Python code is shallowly embedded: dictionaries become a `Msg` structure
whose optional fields model an absent key or a `None` value (the two are
conflated exactly where the code treats them the same; where the code applies
a dict-`get` default this is noted at the definition), external collaborators
(the HTTP source, `dateutil.parser.parse`, `rapidfuzz.process.extract`,
`json.loads`, the completion service) become explicit function parameters,
and Python exceptions become `Option`/`none` results.  Machine integers are
`Int`/`Nat` (Python has arbitrary precision integers, so no wrap-around is
modelled).
-/

namespace QA

/-! ## Python string primitives used by the code -/

/-- The character class of Python's `\s` / `str.strip` (ASCII part). -/
def pySpace (c : Char) : Bool :=
  c = ' ' || c = '\t' || c = '\n' || c = '\r' || c = '\x0b' || c = '\x0c'

/-- Python `str.strip()`: drop leading and trailing whitespace. -/
def pyStrip (s : String) : String :=
  ⟨(((s.data.dropWhile pySpace).reverse.dropWhile pySpace).reverse)⟩

/-- Fuel-driven worker for `collapseWs` (fuel `≥` length suffices). -/
def collapseAux : Nat → List Char → List Char
  | 0, _ => []
  | _ + 1, [] => []
  | n + 1, c :: rest =>
    if pySpace c then ' ' :: collapseAux n (rest.dropWhile pySpace)
    else c :: collapseAux n rest

/-- Python `re.sub(r"\s+", " ", s)`: collapse each whitespace run to one space. -/
def collapseWs (s : String) : String :=
  ⟨collapseAux s.data.length s.data⟩

/-- Code points of a string, for Python-style lexicographic comparison. -/
def codesOf (s : String) : List Nat :=
  s.data.map Char.toNat

/-- Lexicographic `≤` on code-point lists (Python string comparison). -/
def lexLe : List Nat → List Nat → Bool
  | [], _ => true
  | _ :: _, [] => false
  | a :: as, b :: bs => if a < b then true else if b < a then false else lexLe as bs

/-- Python `s <= t` on strings: lexicographic on code points. -/
def strLe (s t : String) : Bool :=
  lexLe (codesOf s) (codesOf t)

/-- Python `str.lower()` (ASCII letters; the inputs of interest are ASCII). -/
def pyLower (s : String) : String :=
  ⟨s.data.map Char.toLower⟩

/-- Python substring test `needle in hay` on character lists. -/
def hasSubAux (needle : List Char) : List Char → Bool
  | [] => needle.isEmpty
  | c :: rest => needle.isPrefixOf (c :: rest) || hasSubAux needle rest

/-- Python substring test `needle in hay` on strings. -/
def hasSubstr (needle hay : String) : Bool :=
  hasSubAux needle.data hay.data

/-- How Python's f-string renders an optional string (`None` prints as `"None"`). -/
def pyShowOpt : Option String → String
  | none => "None"
  | some s => s

/-- Python `"\n".join(lines)`. -/
def joinNl : List String → String
  | [] => ""
  | [s] => s
  | s :: rest => s ++ "\n" ++ joinNl rest

/-- `List.mapM` specialised to `Option` (a Python loop that may raise). -/
def omap (f : α → Option β) : List α → Option (List β)
  | [] => some []
  | a :: l =>
    match f a with
    | none => none
    | some b => (omap f l).map (fun bs => b :: bs)

/-! ## Data model

A message record, after `fetch_messages` normalisation, is a dict with keys
`id`, `member_id`, `member_name`, `text`, `timestamp`.  An optional field
being `none` models the key being absent or holding `None` (fetched records
always carry all keys; `text` is then never `None`). -/

structure Msg where
  id : Nat
  member_id : Option String := none
  member_name : Option String := none
  text : Option String := none
  timestamp : Option String := none
deriving DecidableEq

/-- A raw record of the remote source, before field renaming. -/
structure RawItem where
  id : Nat
  user_id : Option String := none
  user_name : Option String := none
  message : Option String := none
  timestamp : Option String := none
deriving DecidableEq

/-- The fetch-time rename (qa.py lines 67-70):
`member_id = pop("user_id", None)`, `member_name = pop("user_name", None)`,
`text = pop("message", "") or ""`. -/
def normalize (r : RawItem) : Msg :=
  { id := r.id, member_id := r.user_id, member_name := r.user_name,
    text := some (r.message.getD ""), timestamp := r.timestamp }

/-- `m.get("timestamp")` coerced to a string, `""` standing for absent/None. -/
def rawTs (m : Msg) : String :=
  m.timestamp.getD ""

/-- Python truthiness of `m.get("timestamp")`: present and non-empty. -/
def hasTs (m : Msg) : Bool :=
  rawTs m != ""

/-- The burst-grouping key `m.get("member_name", "Unknown")` (analysis.py line 32). -/
def userKey (m : Msg) : String :=
  m.member_name.getD "Unknown"

/-! ## Message fetcher (qa.py `fetch_messages`, lines 18-73)

The remote source is an oracle indexed by the request number; one response is
either a JSON page (`ok`), a 403, a 401, or any exception raised during the
request / `raise_for_status` / JSON decoding (`exc`). -/

inductive FetchResp where
  | ok (items : List RawItem)
  | s403
  | s401
  | exc
deriving DecidableEq

/-- The single `for _ in range(3)` loop of `fetch_messages`: `fuel` is the
remaining iterations, `call` the request number, `skip` the current offset,
`acc` the accumulated items.  Returns the accumulated items together with the
trace of `(skip, response)` per request actually issued.  One iteration is
spent per request whether it succeeds or raises: the budget of 3 is shared
between pages and retries. -/
def fetchGo (src : Nat → FetchResp) (limit : Nat) :
    Nat → Nat → Nat → List RawItem → List RawItem × List (Nat × FetchResp)
  | 0, _, _, acc => (acc, [])
  | fuel + 1, call, skip, acc =>
    match src call with
    | .s403 => (acc, [(skip, src call)])
    | .s401 => (acc, [(skip, src call)])
    | .exc =>
      let r := fetchGo src limit fuel (call + 1) skip acc
      (r.1, (skip, src call) :: r.2)
    | .ok items =>
      if items.isEmpty then (acc, [(skip, src call)])
      else
        let acc2 := acc ++ items
        if limit ≤ skip + 100 then (acc2, [(skip, src call)])
        else
          let r := fetchGo src limit fuel (call + 1) (skip + 100) acc2
          (r.1, (skip, src call) :: r.2)

/-- `fetch_messages(limit)`: up to 3 request iterations starting at offset 0
with page size 100.  Result: the accumulated raw items and the request trace.
(The trailing rename pass applies `normalize` to each item on the fall-through
exits; the 401/403 paths return early without it.  No claim depends on the
rename, so the loop is the modelled contract.) -/
def fetch_messages (src : Nat → FetchResp) (limit : Nat := 200) :
    List RawItem × List (Nat × FetchResp) :=
  fetchGo src limit 3 0 0 []

/-- Items contributed by one response. -/
def pageItems : FetchResp → List RawItem
  | .ok items => items
  | _ => []

/-- Relation between consecutive requests of a fetch trace: an exception
repeats the same offset; a non-empty page advances it by 100 and continues
only while `offset + 100 < limit`. -/
def traceStep (limit : Nat) (a b : Nat × FetchResp) : Prop :=
  (a.2 = .exc ∧ b.1 = a.1) ∨
    (∃ items, a.2 = .ok items ∧ items ≠ [] ∧ b.1 = a.1 + 100 ∧ a.1 + 100 < limit)

/-- The reasons the loop stops before exhausting its iteration budget. -/
def stopReason (limit : Nat) (p : Nat × FetchResp) : Prop :=
  p.2 = .s401 ∨ p.2 = .s403 ∨ p.2 = .ok [] ∨
    (∃ items, p.2 = .ok items ∧ limit ≤ p.1 + 100)

/-! ## Retrieval (qa.py `_msg_text`, `retrieve_top`, lines 76-96)

`rapidfuzz.process.extract` is an external collaborator: it is modelled as a
function returning `(score, index)` pairs (the matched string component of
its result triples is unused by the code). -/

/-- `_msg_text`: the comparison rendering of a message. -/
def msg_text (m : Msg) : String :=
  m.member_name.getD "" ++ " :: " ++ m.text.getD ""

/-- `retrieve_top(messages, question, k)`.  `none` models an `IndexError`
from `corpus[idx]` when the ranking library returns an invalid index (which
its contract rules out). -/
def retrieve_top (extract : String → List String → Nat → List (Int × Nat))
    (messages : List Msg) (question : String) (k : Nat := 24) : Option (List Msg) :=
  if messages.isEmpty then some []
  else
    let strings := messages.map msg_text
    let results := extract question strings (min k strings.length)
    let ranked? := results.foldl
      (fun acc r => acc.bind (fun l =>
        if 40 ≤ r.1 then (messages.get? r.2).map (fun m => l ++ [m]) else some l))
      (some [])
    ranked?.map (fun ranked =>
      (if ranked.isEmpty then messages.take k else ranked).take k)

/-! ## Context builder (qa.py `format_context`, lines 99-115) -/

/-- One rendered context line
`f"- {name} | {ts} | {mid}: {txt}"` with whitespace-normalised text. -/
def renderLine (m : Msg) : String :=
  "- " ++ pyShowOpt m.member_name ++ " | " ++ pyShowOpt m.timestamp ++ " | " ++
    toString m.id ++ ": " ++ pyStrip (collapseWs (m.text.getD ""))

/-- The accumulation loop of `format_context`: `used` is the running total of
line lengths (newline separators are not counted); the first line that would
push `used` past `max_chars` stops the loop entirely. -/
def fcLoop (max_chars : Int) : List Msg → Int → List String
  | [], _ => []
  | m :: rest, used =>
    let line := renderLine m
    if max_chars < used + line.length then []
    else line :: fcLoop max_chars rest (used + line.length)

/-- `format_context(snippets, max_chars)`. -/
def format_context (snippets : List Msg) (max_chars : Int := 8000) : String :=
  joinNl (fcLoop max_chars snippets 0)

/-! ## Burst detection (analysis.py `detect_burst_messages`, lines 21-59)

`dateutil.parser.parse` is an external collaborator modelled as
`parse : String → Option PyDate`; `none` models the exception it raises on a
malformed input.  The code uses the parsed value only through
`(end - start).total_seconds()` and `.year`, so a parsed datetime is reduced
to those two coordinates. -/

/-- The two coordinates of a parsed datetime that the code consults. -/
structure PyDate where
  seconds : Int
  year : Int
deriving DecidableEq

/-- A burst record `{user, count, start, end}` (analysis.py lines 49-56).
`endTs` stands for the source's `"end"` key, which is a Lean keyword. -/
structure Burst where
  user : String
  count : Int
  start : String
  endTs : String
deriving DecidableEq

/-- Python list indexing `l[i]`: non-negative indices from the front, negative
indices from the back, `none` for an `IndexError`. -/
def pyGet (l : List α) (i : Int) : Option α :=
  if 0 ≤ i then l.get? i.toNat
  else if 0 ≤ i + l.length then l.get? (i + l.length).toNat
  else none

/-- Fuel-driven worker for `keysInOrder` (fuel `≥` length suffices). -/
def keysInOrderAux : Nat → List String → List String
  | 0, _ => []
  | _ + 1, [] => []
  | n + 1, u :: rest => u :: keysInOrderAux n (rest.filter (fun v => v != u))

/-- The distinct elements of a list in first-occurrence order: the key order
of a Python dict built by successive insertion. -/
def keysInOrder (l : List String) : List String :=
  keysInOrderAux l.length l

/-- `defaultdict(list)` grouping by `userKey`, in dict iteration order: keys
in first-occurrence order, each group holding its messages in list order. -/
def groupByUser (messages : List Msg) : List (String × List Msg) :=
  (keysInOrder (messages.map userKey)).map
    (fun u => (u, messages.filter (fun m => userKey m == u)))

/-- `valid_msgs = [m for m in msgs if m.get("timestamp")]`. -/
def validOf (msgs : List Msg) : List Msg :=
  msgs.filter hasTs

/-- The sort key relation of `valid_msgs.sort(key=lambda x: x["timestamp"])`:
Python compares the raw timestamp strings lexicographically. -/
def tsRel (a b : Msg) : Prop :=
  strLe (rawTs a) (rawTs b) = true

instance : DecidableRel tsRel := fun a b =>
  inferInstanceAs (Decidable (strLe (rawTs a) (rawTs b) = true))

/-- `valid_msgs` after the stable ascending sort by raw timestamp string. -/
def sortedOf (msgs : List Msg) : List Msg :=
  List.insertionSort tsRel (validOf msgs)

/-- `times = [date_parse(m["timestamp"]) for m in valid_msgs]`, keeping each
parsed value next to its raw string; `none` models the parse exception. -/
def entriesOf (parse : String → Option PyDate) (msgs : List Msg) :
    Option (List (String × PyDate)) :=
  omap (fun m => (parse (rawTs m)).map (fun d => (rawTs m, d))) (sortedOf msgs)

/-- The sliding-window loop `for i in range(len(times) - k + 1)` over the
given index list: `none` is an `IndexError`, `some none` no qualifying
window, `some (some (ps, pe))` the first window whose span is within `w`. -/
def scanBurst (entries : List (String × PyDate)) (k w : Int) :
    List Nat → Option (Option ((String × PyDate) × (String × PyDate)))
  | [] => some none
  | i :: rest =>
    match pyGet entries (i : Int), pyGet entries ((i : Int) + k - 1) with
    | some ps, some pe =>
      if pe.2.seconds - ps.2.seconds ≤ w then some (some (ps, pe))
      else scanBurst entries k w rest
    | _, _ => none

/-- The body of `detect_burst_messages` for one user group. -/
def detectUser (parse : String → Option PyDate) (k w : Int) (user : String)
    (msgs : List Msg) : Option (Option Burst) :=
  if (validOf msgs).isEmpty then some none
  else
    match entriesOf parse msgs with
    | none => none
    | some entries =>
      match scanBurst entries k w
          (List.range (((entries.length : Int) - k + 1).toNat)) with
      | none => none
      | some none => some none
      | some (some (ps, pe)) => some (some ⟨user, k, ps.1, pe.1⟩)

/-- `detect_burst_messages(messages, threshold_count, time_window_seconds)`:
`none` models an uncaught exception escaping the function. -/
def detect_burst_messages (parse : String → Option PyDate) (messages : List Msg)
    (threshold_count : Int := 5) (time_window_seconds : Int := 30) :
    Option (List Burst) :=
  (omap (fun g => detectUser parse threshold_count time_window_seconds g.1 g.2)
      (groupByUser messages)).map (fun opts => opts.filterMap id)

/-! ## Underspecified-request classifier
(analysis.py `detect_underspecified_requests_gpt`, lines 64-159)

External collaborators: the completion service is `svcReply : Option String`
(`none` models an exception raised by the API call, a `None` content, or
anything else failing before `json.loads`); `json.loads` is
`parseJson : String → Option JVal` over a JSON value type (`none` models its
parse exception). -/

/-- JSON values as produced by `json.loads`. -/
inductive JVal where
  | jnull
  | jbool (b : Bool)
  | jint (n : Int)
  | jstr (s : String)
  | jarr (l : List JVal)

/-- Python's `isinstance(i, int)` view of a JSON value: `bool` is a subclass
of `int` in Python, so `true`/`false` count as `1`/`0`. -/
def asPyInt : JVal → Option Int
  | .jbool b => some (if b then 1 else 0)
  | .jint n => some n
  | _ => none

/-- The fixed action-word list (analysis.py line 88). -/
def action_words : List String :=
  ["book", "reserve", "schedule", "arrange", "order", "buy"]

/-- `any(a in text.lower() for a in action_words)`. -/
def isActionRequest (m : Msg) : Bool :=
  action_words.any (fun a => hasSubstr a (pyLower (m.text.getD "")))

/-- What one reply-array entry contributes: the candidate at `i - 1` when the
entry passes `isinstance(i, int) and 1 <= i <= len(candidate_msgs)`. -/
def acceptIdx (cands : List Msg) (e : JVal) : Option Msg :=
  (asPyInt e).bind (fun i =>
    if 1 ≤ i ∧ i ≤ (cands.length : Int) then cands.get? (i - 1).toNat else none)

/-- The index-mapping loop (analysis.py lines 150-153), appending the matched
candidate once per occurrence of a valid index. -/
def mapIndices (cands : List Msg) (entries : List JVal) : List Msg :=
  entries.foldl
    (fun acc e =>
      match asPyInt e with
      | some i =>
        if 1 ≤ i ∧ i ≤ (cands.length : Int) then
          acc ++ (cands.get? (i - 1).toNat).toList
        else acc
      | none => acc)
    []

/-- `detect_underspecified_requests_gpt(messages, max_examples)`. -/
def detect_underspecified_requests_gpt (api_key : Option String)
    (svcReply : Option String) (parseJson : String → Option JVal)
    (messages : List Msg) (max_examples : Nat := 80) : List Msg :=
  if api_key.getD "" = "" then []
  else
    let cands0 := messages.filter isActionRequest
    if cands0.isEmpty then []
    else
      let cands := cands0.take max_examples
      match svcReply with
      | none => []
      | some content =>
        match parseJson (pyStrip content) with
        | none => []
        | some (.jarr entries) => mapIndices cands entries
        | some _ => []

/-! ## Duplicate / integrity scanner (analysis.py `main`, lines 186-210) -/

/-- The trimmed text used as the duplicate-group key. -/
def trimText (m : Msg) : String :=
  pyStrip (m.text.getD "")

/-- `text_map`: a `defaultdict(list)` keyed by non-empty trimmed text, in
dict insertion order, each key holding the ids of its messages in list
order. -/
def text_map (messages : List Msg) : List (String × List Nat) :=
  (keysInOrder ((messages.filter (fun m => trimText m != "")).map trimText)).map
    (fun t => (t, (messages.filter (fun m => trimText m == t)).map Msg.id))

/-- `duplicate_msgs = {txt: ids for txt, ids in text_map.items() if len(ids) > 1}`. -/
def duplicate_msgs (messages : List Msg) : List (String × List Nat) :=
  (text_map messages).filter (fun p => decide (2 ≤ p.2.length))

/-- The impossible/future-timestamp loop (analysis.py lines 198-210):
falsy timestamps are skipped, a parse exception is caught and skipped, and a
parsed year beyond `now.year + 2` flags the message. -/
def impossible_times (parse : String → Option PyDate) (nowYear : Int)
    (messages : List Msg) : List Msg :=
  messages.foldl
    (fun acc m =>
      if rawTs m = "" then acc
      else
        match parse (rawTs m) with
        | none => acc
        | some dt => if nowYear + 2 < dt.year then acc ++ [m] else acc)
    []

/-- Modelled from the spec, for comparison: C9's membership condition — the
timestamp is present, parses successfully, and its year exceeds the current
year plus 2. -/
def specImpossible (parse : String → Option PyDate) (nowYear : Int)
    (m : Msg) : Bool :=
  match m.timestamp with
  | none => false
  | some s =>
    match parse s with
    | none => false
    | some dt => decide (nowYear + 2 < dt.year)

/-! ## Helper lemmas -/

theorem omap_forall₂ {f : α → Option β} :
    ∀ {l : List α} {out : List β}, omap f l = some out →
      List.Forall₂ (fun a b => f a = some b) l out
  | [], out, h => by
    simp only [omap, Option.some.injEq] at h
    subst h; exact List.Forall₂.nil
  | a :: l, out, h => by
    simp only [omap] at h
    cases hfa : f a with
    | none => rw [hfa] at h; exact absurd h (by simp)
    | some b =>
      rw [hfa] at h
      cases hrec : omap f l with
      | none => rw [hrec] at h; exact absurd h (by simp)
      | some bs =>
        rw [hrec] at h
        simp only [Option.map_some', Option.some.injEq] at h
        subst h
        exact List.Forall₂.cons hfa (omap_forall₂ hrec)

theorem omap_eq_none {f : α → Option β} {l : List α} {a : α}
    (ha : a ∈ l) (hfa : f a = none) : omap f l = none := by
  induction l with
  | nil => cases ha
  | cons x l ih =>
    rcases List.mem_cons.mp ha with rfl | hmem
    · simp [omap, hfa]
    · simp only [omap]
      cases f x with
      | none => rfl
      | some b => rw [ih hmem]; rfl

theorem forall₂_mem_right {R : α → β → Prop} :
    ∀ {l : List α} {l' : List β}, List.Forall₂ R l l' → ∀ {b}, b ∈ l' →
      ∃ a ∈ l, R a b
  | _, _, List.Forall₂.nil, b, hb => by cases hb
  | _, _, List.Forall₂.cons h hrest, b, hb => by
    rcases List.mem_cons.mp hb with rfl | hmem
    · exact ⟨_, List.mem_cons_self _ _, h⟩
    · obtain ⟨a, ha, hR⟩ := forall₂_mem_right hrest hmem
      exact ⟨a, List.mem_cons_of_mem _ ha, hR⟩

theorem keysInOrderAux_mem :
    ∀ {fuel : Nat} {l : List String}, l.length ≤ fuel →
      ∀ {v}, (v ∈ keysInOrderAux fuel l ↔ v ∈ l)
  | 0, l, h, v => by
    rw [Nat.le_zero, List.length_eq_zero] at h
    subst h; simp [keysInOrderAux]
  | fuel + 1, [], _, v => by simp [keysInOrderAux]
  | fuel + 1, u :: rest, h, v => by
    simp only [List.length_cons, Nat.add_le_add_iff_right] at h
    have hlen : (rest.filter (fun x => x != u)).length ≤ fuel :=
      le_trans (List.length_filter_le _ _) h
    simp only [keysInOrderAux, List.mem_cons, keysInOrderAux_mem hlen,
      List.mem_filter, bne_iff_ne]
    constructor
    · rintro (rfl | ⟨hv, _⟩)
      · exact Or.inl rfl
      · exact Or.inr hv
    · rintro (rfl | hv)
      · exact Or.inl rfl
      · by_cases hvu : v = u
        · exact Or.inl hvu
        · exact Or.inr ⟨hv, hvu⟩

theorem keysInOrderAux_nodup :
    ∀ {fuel : Nat} {l : List String}, l.length ≤ fuel →
      (keysInOrderAux fuel l).Nodup
  | 0, _, _ => List.Pairwise.nil
  | fuel + 1, [], _ => by simp [keysInOrderAux]
  | fuel + 1, u :: rest, h => by
    simp only [List.length_cons, Nat.add_le_add_iff_right] at h
    have hlen : (rest.filter (fun x => x != u)).length ≤ fuel :=
      le_trans (List.length_filter_le _ _) h
    refine List.Pairwise.cons (fun v hv => ?_) (keysInOrderAux_nodup hlen)
    have := (keysInOrderAux_mem hlen).mp hv
    rcases List.mem_filter.mp this with ⟨_, hne⟩
    exact (bne_iff_ne.mp hne).symm

theorem keysInOrder_mem {l : List String} {v : String} :
    v ∈ keysInOrder l ↔ v ∈ l :=
  keysInOrderAux_mem le_rfl

theorem keysInOrder_nodup (l : List String) : (keysInOrder l).Nodup :=
  keysInOrderAux_nodup le_rfl

/-- `duplicate_msgs` seen through `text_map` membership. -/
theorem mem_text_map {messages : List Msg} {p : String × List Nat}
    (hp : p ∈ text_map messages) :
    (∃ m ∈ messages, trimText m = p.1 ∧ trimText m ≠ "") ∧
      p.2 = (messages.filter (fun m => trimText m == p.1)).map Msg.id := by
  obtain ⟨t, ht, rfl⟩ := List.mem_map.mp hp
  have ht' := keysInOrder_mem.mp ht
  obtain ⟨m, hm, hmt⟩ := List.mem_map.mp ht'
  rcases List.mem_filter.mp hm with ⟨hmem, hne⟩
  exact ⟨⟨m, hmem, hmt, by rwa [bne_iff_ne] at hne⟩, rfl⟩

/-- C8 demo input: two messages whose texts trim to `"a"` and one whose text
trims to empty. -/
def dupDemo : List Msg :=
  [{ id := 1, text := some " a " }, { id := 2, text := some "a" },
   { id := 3, text := some "  " }]

/-- **C8** — For every message set, the duplicate-text scan produces groups
whose keys are non-empty trimmed texts, holding at least 2 ids, and every
listed id belongs to an input message whose trimmed text equals the key. -/
theorem duplicates_props (messages : List Msg) :
    ∀ p ∈ duplicate_msgs messages,
      p.1 ≠ "" ∧ 2 ≤ p.2.length ∧
        ∀ i ∈ p.2, ∃ m ∈ messages, m.id = i ∧ trimText m = p.1 := by
  intro p hp
  rcases List.mem_filter.mp hp with ⟨hmap, hlen⟩
  obtain ⟨⟨m, _, hmt, hne⟩, hids⟩ := mem_text_map hmap
  refine ⟨hmt ▸ hne, by simpa using hlen, fun i hi => ?_⟩
  rw [hids] at hi
  obtain ⟨m', hm', rfl⟩ := List.mem_map.mp hi
  rcases List.mem_filter.mp hm' with ⟨hmem', hkey⟩
  exact ⟨m', hmem', rfl, by rwa [beq_iff_eq] at hkey⟩

/-- Witness for C8 at a concrete input. -/
theorem duplicates_props_witness :
    ("a" : String) ≠ "" ∧ 2 ≤ ([1, 2] : List Nat).length ∧
      ∀ i ∈ ([1, 2] : List Nat), ∃ m ∈ dupDemo, m.id = i ∧ trimText m = "a" :=
  duplicates_props dupDemo ("a", [1, 2]) (by decide)

/-- The impossible-timestamp loop as a filter over the message list. -/
def codeImpossible (parse : String → Option PyDate) (nowYear : Int)
    (m : Msg) : Bool :=
  if rawTs m = "" then false
  else
    match parse (rawTs m) with
    | none => false
    | some dt => decide (nowYear + 2 < dt.year)

theorem impossible_times_eq (parse : String → Option PyDate) (nowYear : Int)
    (messages : List Msg) :
    impossible_times parse nowYear messages
      = messages.filter (codeImpossible parse nowYear) := by
  suffices h : ∀ (l : List Msg) (acc : List Msg),
      l.foldl
        (fun acc m =>
          if rawTs m = "" then acc
          else
            match parse (rawTs m) with
            | none => acc
            | some dt => if nowYear + 2 < dt.year then acc ++ [m] else acc)
        acc = acc ++ l.filter (codeImpossible parse nowYear) by
    simpa [impossible_times] using h messages []
  intro l
  induction l with
  | nil => simp
  | cons m l ih =>
    intro acc
    simp only [List.foldl_cons, List.filter_cons]
    by_cases hts : rawTs m = ""
    · simp [hts, ih, codeImpossible]
    · cases hparse : parse (rawTs m) with
      | none => simp [hts, hparse, ih, codeImpossible]
      | some dt =>
        by_cases hyear : nowYear + 2 < dt.year
        · simp [hts, hparse, hyear, ih, codeImpossible]
        · simp [hts, hparse, hyear, ih, codeImpossible]

/-- **C9** — The impossible-timestamp set contains exactly the messages whose
timestamp is present, parses, and has year beyond the current year plus 2;
absent and unparseable timestamps are never added.  The only collaborator
fact used is that `dateutil` raises on the empty string (`parse "" = none`),
which separates Python's falsiness test from the claim's presence test. -/
theorem impossible_times_spec (parse : String → Option PyDate) (nowYear : Int)
    (messages : List Msg) (hempty : parse "" = none) :
    impossible_times parse nowYear messages
      = messages.filter (specImpossible parse nowYear) := by
  rw [impossible_times_eq]
  apply List.filter_congr
  intro m _
  unfold codeImpossible specImpossible
  cases hts : m.timestamp with
  | none => simp [rawTs, hts]
  | some s =>
    by_cases hs : s = ""
    · subst hs; simp [rawTs, hts, hempty]
    · simp only [rawTs, hts, Option.getD_some, if_neg hs]

/-- C9 demo parse function: parses only the string `"2099"`. -/
def p9 : String → Option PyDate := fun s =>
  if s = "2099" then some ⟨0, 2099⟩ else none

/-- Witness for C9 at a concrete input. -/
theorem impossible_times_spec_witness :
    impossible_times p9 2026
        [{ id := 1, timestamp := some "2099" }, { id := 2, timestamp := some "bad" }]
      = [{ id := 1, timestamp := some "2099" },
          { id := 2, timestamp := some "bad" }].filter (specImpossible p9 2026) :=
  impossible_times_spec p9 2026 _ (by decide)

/-! ## Context-builder results (C5) -/

theorem fcLoop_sum {max_chars : Int} :
    ∀ (l : List Msg) (used : Int), fcLoop max_chars l used ≠ [] →
      used + (((fcLoop max_chars l used).map String.length).sum : Int) ≤ max_chars
  | [], _, h => absurd rfl h
  | m :: rest, used, h => by
    by_cases hstop : max_chars < used + (renderLine m).length
    · exact absurd (by simp [fcLoop, hstop]) h
    · have hunfold : fcLoop max_chars (m :: rest) used
          = renderLine m :: fcLoop max_chars rest (used + (renderLine m).length) := by
        simp [fcLoop, hstop]
      by_cases htail : fcLoop max_chars rest (used + (renderLine m).length) = []
      · rw [hunfold, htail]
        simp only [List.map_cons, List.map_nil, List.sum_cons, List.sum_nil]
        push_cast
        omega
      · have ih := fcLoop_sum rest (used + (renderLine m).length) htail
        rw [hunfold]
        simp only [List.map_cons, List.sum_cons]
        push_cast at ih ⊢
        omega

theorem joinNl_length :
    ∀ {lines : List String}, lines ≠ [] →
      (joinNl lines).length = (lines.map String.length).sum + (lines.length - 1)
  | [], h => absurd rfl h
  | [s], _ => by simp [joinNl]
  | s :: t :: rest, _ => by
    have ih := @joinNl_length (t :: rest) (by simp)
    simp only [joinNl, String.length_append] at ih ⊢
    have hnl : ("\n" : String).length = 1 := rfl
    simp only [List.map_cons, List.sum_cons, List.length_cons] at ih ⊢
    omega

/-- **C5 (amended)** — `format_context` checks, before appending each line,
whether the running total of line lengths plus this line's length would
exceed `max_chars`, and stops entirely if so; hence the total of appended
line lengths is at most `max_chars`.  But the newline separators added by
`"\n".join` are not counted against the budget, so the returned string's
length is only bounded by `max_chars` plus the number of included lines
minus one — not by `max_chars` plus the length of the stopping line. -/
theorem format_context_amended (snippets : List Msg) (max_chars : Int) :
    (fcLoop max_chars snippets 0 = [] → format_context snippets max_chars = "") ∧
    (fcLoop max_chars snippets 0 ≠ [] →
      (((fcLoop max_chars snippets 0).map String.length).sum : Int) ≤ max_chars ∧
      ((format_context snippets max_chars).length : Int) ≤
        max_chars + ((fcLoop max_chars snippets 0).length - 1)) := by
  constructor
  · intro h
    simp [format_context, h, joinNl]
  · intro h
    have hsum := @fcLoop_sum max_chars snippets 0 h
    rw [zero_add] at hsum
    refine ⟨hsum, ?_⟩
    have hjoin := joinNl_length h
    have hpos : 1 ≤ (fcLoop max_chars snippets 0).length :=
      List.length_pos.mpr h
    unfold format_context
    rw [hjoin]
    push_cast [Nat.cast_sub hpos]
    push_cast at hsum
    omega

/-- A snippet whose rendered line is 11 characters long. -/
def exSnippet : Msg := { id := 0, member_name := some "", timestamp := some "" }

/-- **C5 counterexample** — 14 copies of an 11-character line with
`max_chars = 143`: 13 lines are appended (the 14th causes the stopping
check), yet the returned string is 155 characters long because of the 12
uncounted newline separators, exceeding `max_chars + 11 = 154`.  This
refutes "the returned string is never longer than max_chars plus the length
of the one line that caused the stopping check". -/
theorem format_context_length_counterexample :
    (renderLine exSnippet).length = 11 ∧
    (fcLoop 143 (List.replicate 14 exSnippet) 0).length = 13 ∧
    (format_context (List.replicate 14 exSnippet) 143).length = 155 ∧
    ¬ (((format_context (List.replicate 14 exSnippet) 143).length : Int)
        ≤ 143 + ((renderLine exSnippet).length : Int)) := by
  refine ⟨by decide, by decide, by decide, by decide⟩

/-- Witness for the amended C5 at a concrete input. -/
theorem format_context_amended_witness :
    (((fcLoop 143 (List.replicate 14 exSnippet) 0).map String.length).sum : Int) ≤ 143 ∧
    ((format_context (List.replicate 14 exSnippet) 143).length : Int) ≤
      143 + ((fcLoop 143 (List.replicate 14 exSnippet) 0).length - 1) :=
  (format_context_amended (List.replicate 14 exSnippet) 143).2 (by decide)

/-! ## Classifier results (C7, C10) -/

theorem foldl_append_toList (g : α → Option β) :
    ∀ (l : List α) (acc : List β),
      l.foldl (fun acc e => acc ++ (g e).toList) acc = acc ++ l.filterMap g
  | [], acc => by simp
  | e :: l, acc => by
    rw [List.foldl_cons, foldl_append_toList g l, List.filterMap_cons]
    cases g e <;> simp

theorem mapIndices_eq (cands : List Msg) (entries : List JVal) :
    mapIndices cands entries = entries.filterMap (acceptIdx cands) := by
  have hbody : ∀ (acc : List Msg) (e : JVal),
      (match asPyInt e with
        | some i =>
          if 1 ≤ i ∧ i ≤ (cands.length : Int) then
            acc ++ (cands.get? (i - 1).toNat).toList
          else acc
        | none => acc) = acc ++ (acceptIdx cands e).toList := by
    intro acc e
    unfold acceptIdx
    cases asPyInt e with
    | none => simp
    | some i =>
      by_cases hi : 1 ≤ i ∧ i ≤ (cands.length : Int)
      · simp [hi]
      · simp [hi]
  unfold mapIndices
  rw [show (fun (acc : List Msg) (e : JVal) =>
      match asPyInt e with
      | some i =>
        if 1 ≤ i ∧ i ≤ (cands.length : Int) then
          acc ++ (cands.get? (i - 1).toNat).toList
        else acc
      | none => acc) = fun acc e => acc ++ (acceptIdx cands e).toList from
    funext fun acc => funext fun e => hbody acc e]
  simpa using foldl_append_toList (acceptIdx cands) entries []

theorem acceptIdx_mem {cands : List Msg} {e : JVal} {m : Msg}
    (h : acceptIdx cands e = some m) : m ∈ cands := by
  unfold acceptIdx at h
  cases he : asPyInt e with
  | none => rw [he] at h; simp at h
  | some i =>
    rw [he] at h
    simp only [Option.some_bind] at h
    split at h
    · exact List.get?_mem h
    · simp at h

/-- The reply-is-a-JSON-array branch of the classifier, as a `filterMap`. -/
theorem detect_jarr_eq (api_key : Option String) (content : String)
    (parseJson : String → Option JVal) (messages : List Msg)
    (max_examples : Nat) (entries : List JVal)
    (hkey : api_key.getD "" ≠ "")
    (hcands : messages.filter isActionRequest ≠ [])
    (hparse : parseJson (pyStrip content) = some (.jarr entries)) :
    detect_underspecified_requests_gpt api_key (some content) parseJson
        messages max_examples
      = entries.filterMap
          (acceptIdx ((messages.filter isActionRequest).take max_examples)) := by
  have hE : (messages.filter isActionRequest).isEmpty = false := by
    simpa [List.isEmpty_iff] using hcands
  simp only [detect_underspecified_requests_gpt, if_neg hkey, hE,
    Bool.false_eq_true, if_false, hparse]
  exact mapIndices_eq _ _

/-- **C7 (amended)** — The classifier returns `[]` without raising when the
credential is unconfigured, when the service call fails, when the reply does
not parse as JSON, and when it parses to a non-array.  When the reply is a
JSON array, an entry is mapped back to a candidate exactly when Python's
`isinstance(e, int)` accepts it — which admits JSON booleans (`true` counts
as index 1, `false` as 0) since `bool` is a subclass of `int` — and its value
lies in `[1, len(candidates)]`; all other entries are ignored, and every
returned message is one of the input messages. -/
theorem underspec_failsoft_amended (api_key : Option String)
    (svcReply : Option String) (parseJson : String → Option JVal)
    (messages : List Msg) (max_examples : Nat) :
    (api_key.getD "" = "" →
      detect_underspecified_requests_gpt api_key svcReply parseJson
        messages max_examples = []) ∧
    (svcReply = none →
      detect_underspecified_requests_gpt api_key svcReply parseJson
        messages max_examples = []) ∧
    (∀ content, svcReply = some content → parseJson (pyStrip content) = none →
      detect_underspecified_requests_gpt api_key svcReply parseJson
        messages max_examples = []) ∧
    (∀ content v, svcReply = some content →
      parseJson (pyStrip content) = some v → (∀ l, v ≠ JVal.jarr l) →
      detect_underspecified_requests_gpt api_key svcReply parseJson
        messages max_examples = []) ∧
    (∀ content entries, svcReply = some content → api_key.getD "" ≠ "" →
      messages.filter isActionRequest ≠ [] →
      parseJson (pyStrip content) = some (.jarr entries) →
      detect_underspecified_requests_gpt api_key svcReply parseJson
          messages max_examples
        = entries.filterMap
            (acceptIdx ((messages.filter isActionRequest).take max_examples))) ∧
    (∀ m ∈ detect_underspecified_requests_gpt api_key svcReply parseJson
        messages max_examples, m ∈ messages) := by
  have hmem : ∀ m ∈ detect_underspecified_requests_gpt api_key svcReply parseJson
      messages max_examples, m ∈ messages := by
    intro m hm
    by_cases hkey : api_key.getD "" = ""
    · simp [detect_underspecified_requests_gpt, if_pos hkey] at hm
    · cases hE : (messages.filter isActionRequest).isEmpty with
      | true => simp [detect_underspecified_requests_gpt, if_neg hkey, hE] at hm
      | false =>
        cases svcReply with
        | none =>
          simp [detect_underspecified_requests_gpt, if_neg hkey, hE] at hm
        | some content =>
          cases hpj : parseJson (pyStrip content) with
          | none =>
            simp [detect_underspecified_requests_gpt, if_neg hkey, hE, hpj] at hm
          | some v =>
            cases v with
            | jarr entries =>
              simp only [detect_underspecified_requests_gpt, if_neg hkey, hE,
                Bool.false_eq_true, if_false, hpj] at hm
              rw [mapIndices_eq] at hm
              obtain ⟨e, _, hacc⟩ := List.mem_filterMap.mp hm
              have hin := acceptIdx_mem hacc
              have := (List.take_sublist max_examples
                (messages.filter isActionRequest)).subset hin
              exact List.mem_of_mem_filter this
            | jnull =>
              simp [detect_underspecified_requests_gpt, if_neg hkey, hE, hpj] at hm
            | jbool b =>
              simp [detect_underspecified_requests_gpt, if_neg hkey, hE, hpj] at hm
            | jint n =>
              simp [detect_underspecified_requests_gpt, if_neg hkey, hE, hpj] at hm
            | jstr s =>
              simp [detect_underspecified_requests_gpt, if_neg hkey, hE, hpj] at hm
  refine ⟨?_, ?_, ?_, ?_, ?_, hmem⟩
  · intro hkey
    simp [detect_underspecified_requests_gpt, if_pos hkey]
  · rintro rfl
    by_cases hkey : api_key.getD "" = ""
    · simp [detect_underspecified_requests_gpt, if_pos hkey]
    · cases hE : (messages.filter isActionRequest).isEmpty with
      | true => simp [detect_underspecified_requests_gpt, if_neg hkey, hE]
      | false => simp [detect_underspecified_requests_gpt, if_neg hkey, hE]
  · rintro content rfl hpj
    by_cases hkey : api_key.getD "" = ""
    · simp [detect_underspecified_requests_gpt, if_pos hkey]
    · cases hE : (messages.filter isActionRequest).isEmpty with
      | true => simp [detect_underspecified_requests_gpt, if_neg hkey, hE]
      | false => simp [detect_underspecified_requests_gpt, if_neg hkey, hE, hpj]
  · rintro content v rfl hpj hnarr
    by_cases hkey : api_key.getD "" = ""
    · simp [detect_underspecified_requests_gpt, if_pos hkey]
    · cases hE : (messages.filter isActionRequest).isEmpty with
      | true => simp [detect_underspecified_requests_gpt, if_neg hkey, hE]
      | false =>
        cases v with
        | jarr l => exact absurd rfl (hnarr l)
        | jnull =>
          simp [detect_underspecified_requests_gpt, if_neg hkey, hE, hpj]
        | jbool b =>
          simp [detect_underspecified_requests_gpt, if_neg hkey, hE, hpj]
        | jint n =>
          simp [detect_underspecified_requests_gpt, if_neg hkey, hE, hpj]
        | jstr s =>
          simp [detect_underspecified_requests_gpt, if_neg hkey, hE, hpj]
  · rintro content entries rfl hkey hcands hpj
    exact detect_jarr_eq api_key content parseJson messages max_examples
      entries hkey hcands hpj

/-- C7 demo candidate: an action-request message. -/
def cmsg : Msg :=
  { id := 1, member_name := some "U", text := some "please book it",
    timestamp := some "t" }

/-- C7 demo JSON parse: the reply `"[true]"` parses to the array `[true]`. -/
def pjTrue : String → Option JVal := fun s =>
  if s = "[true]" then some (.jarr [.jbool true]) else none

/-- Modelled from the spec words of C7: the mapping that ignores every reply
entry that is not a (genuine) JSON integer. -/
def specMapIndices (cands : List Msg) (entries : List JVal) : List Msg :=
  entries.foldl
    (fun acc e =>
      match e with
      | .jint i =>
        if 1 ≤ i ∧ i ≤ (cands.length : Int) then
          acc ++ (cands.get? (i - 1).toNat).toList
        else acc
      | _ => acc)
    []

/-- **C7 counterexample** — a reply that is the JSON array `[true]`: its sole
entry is a boolean, not an integer, yet the code returns the first candidate
(Python's `isinstance(True, int)` holds and `True` compares as `1`), where
the claim's ignore-non-integers rule would return `[]`. -/
theorem underspec_bool_counterexample :
    detect_underspecified_requests_gpt (some "key") (some "[true]") pjTrue
        [cmsg] 80 = [cmsg] ∧
    specMapIndices [cmsg] [.jbool true] = [] :=
  ⟨by decide, by decide⟩

/-- Witness for the amended C7 at a concrete input (service call failed). -/
theorem underspec_failsoft_amended_witness :
    detect_underspecified_requests_gpt (some "key") none pjTrue [cmsg] 80 = [] :=
  (underspec_failsoft_amended (some "key") none pjTrue [cmsg] 80).2.1 rfl

/-- **C10** — a reply array holding the same valid index twice maps the same
candidate message into the result once per occurrence: no deduplication. -/
theorem underspec_duplicate_indices (api_key : Option String) (content : String)
    (parseJson : String → Option JVal) (messages : List Msg)
    (max_examples : Nat) (e₁ e₂ e₃ : List JVal) (i : Int)
    (hkey : api_key.getD "" ≠ "")
    (hcands : messages.filter isActionRequest ≠ [])
    (hparse : parseJson (pyStrip content)
      = some (.jarr (e₁ ++ .jint i :: (e₂ ++ .jint i :: e₃))))
    (hi : 1 ≤ i ∧
      i ≤ (((messages.filter isActionRequest).take max_examples).length : Int)) :
    ∃ c, ((messages.filter isActionRequest).take max_examples).get?
          (i - 1).toNat = some c ∧
      detect_underspecified_requests_gpt api_key (some content) parseJson
          messages max_examples
        = e₁.filterMap
              (acceptIdx ((messages.filter isActionRequest).take max_examples))
            ++ c :: (e₂.filterMap
              (acceptIdx ((messages.filter isActionRequest).take max_examples))
            ++ c :: e₃.filterMap
              (acceptIdx ((messages.filter isActionRequest).take max_examples))) := by
  set cands := (messages.filter isActionRequest).take max_examples with hcdef
  have hlt : (i - 1).toNat < cands.length := by omega
  refine ⟨cands.get ⟨(i - 1).toNat, hlt⟩, List.get?_eq_get hlt, ?_⟩
  have hacc : acceptIdx cands (.jint i)
      = some (cands.get ⟨(i - 1).toNat, hlt⟩) := by
    unfold acceptIdx
    simp only [asPyInt, Option.some_bind, if_pos hi]
    exact List.get?_eq_get hlt
  rw [detect_jarr_eq api_key content parseJson messages max_examples _ hkey
    hcands hparse]
  rw [List.filterMap_append, List.filterMap_cons, hacc,
    List.filterMap_append, List.filterMap_cons, hacc]

/-- Witness for C10 at a concrete input: the reply `[1, 1]` over a single
candidate returns that candidate twice. -/
theorem underspec_duplicate_indices_witness :
    ∃ c, (([cmsg].filter isActionRequest).take 80).get? ((1 : Int) - 1).toNat
          = some c ∧
      detect_underspecified_requests_gpt (some "key") (some "[1, 1]")
          (fun s => if s = "[1, 1]" then
            some (.jarr [.jint 1, .jint 1]) else none) [cmsg] 80
        = ([] : List JVal).filterMap
              (acceptIdx (([cmsg].filter isActionRequest).take 80))
            ++ c :: (([] : List JVal).filterMap
              (acceptIdx (([cmsg].filter isActionRequest).take 80))
            ++ c :: ([] : List JVal).filterMap
              (acceptIdx (([cmsg].filter isActionRequest).take 80))) :=
  underspec_duplicate_indices (some "key") "[1, 1]"
    (fun s => if s = "[1, 1]" then some (.jarr [.jint 1, .jint 1]) else none)
    [cmsg] 80 [] [] [] 1 (by decide) (by decide) rfl (by decide)

/-! ## Retrieval results (C6) -/

theorem rankedFold (messages : List Msg) :
    ∀ (results : List (Int × Nat)) (l₀ : List Msg),
      (∀ r ∈ results, r.2 < messages.length) →
      ∃ l, results.foldl
          (fun acc r => acc.bind (fun l =>
            if 40 ≤ r.1 then (messages.get? r.2).map (fun m => l ++ [m])
            else some l))
          (some l₀) = some l ∧
        l.length ≤ l₀.length + results.length ∧
        ∀ m ∈ l, m ∈ l₀ ∨ m ∈ messages
  | [], l₀, _ => ⟨l₀, rfl, by simp, fun m hm => Or.inl hm⟩
  | r :: rest, l₀, hidx => by
    have hr := hidx r (List.mem_cons_self r rest)
    have hrest : ∀ x ∈ rest, x.2 < messages.length :=
      fun x hx => hidx x (List.mem_cons_of_mem r hx)
    by_cases hscore : 40 ≤ r.1
    · have hget : messages.get? r.2 = some (messages.get ⟨r.2, hr⟩) :=
        List.get?_eq_get hr
      obtain ⟨l, hfold, hlen, hmem⟩ :=
        rankedFold messages rest (l₀ ++ [messages.get ⟨r.2, hr⟩]) hrest
      refine ⟨l, ?_, ?_, ?_⟩
      · rw [List.foldl_cons]
        simp only [Option.some_bind, if_pos hscore, hget, Option.map_some']
        exact hfold
      · have := hlen
        simp only [List.length_append, List.length_singleton,
          List.length_cons, List.length_nil] at this ⊢
        omega
      · intro m hm
        rcases hmem m hm with h | h
        · rcases List.mem_append.mp h with h | h
          · exact Or.inl h
          · simp only [List.mem_singleton] at h
            exact Or.inr (h ▸ List.get_mem _ _ _)
        · exact Or.inr h
    · obtain ⟨l, hfold, hlen, hmem⟩ := rankedFold messages rest l₀ hrest
      refine ⟨l, ?_, ?_, hmem⟩
      · rw [List.foldl_cons]
        simp only [Option.some_bind, if_neg hscore]
        exact hfold
      · exact le_trans hlen (by simp only [List.length_cons]; omega)

/-- **C6** — `retrieve_top` returns `[]` on an empty message list; on a
non-empty list it returns between 1 and `k` messages (the fallback to the
first `k` messages fires when nothing scores at least 40), and every
returned message is an element of the input.  Collaborator contract for
`rapidfuzz.process.extract`: it returns at most `limit` results whose
indices are valid for the given string list; `1 ≤ k` because a "between 1
and k results" guarantee presupposes a positive budget (the call site uses
`k = 24`). -/
theorem retrieve_top_props
    (extract : String → List String → Nat → List (Int × Nat))
    (messages : List Msg) (question : String) (k : Nat) (hk : 1 ≤ k)
    (hidx : ∀ r ∈ extract question (messages.map msg_text)
        (min k messages.length), r.2 < messages.length)
    (hlen : (extract question (messages.map msg_text)
        (min k messages.length)).length ≤ min k messages.length) :
    ∃ res, retrieve_top extract messages question k = some res ∧
      (messages = [] → res = []) ∧
      (messages ≠ [] → 1 ≤ res.length ∧ res.length ≤ k) ∧
      ∀ m ∈ res, m ∈ messages := by
  by_cases hM : messages = []
  · subst hM
    exact ⟨[], by simp [retrieve_top], fun _ => rfl,
      fun h => absurd rfl h, by simp⟩
  · have hE : messages.isEmpty = false := by
      simpa [List.isEmpty_iff] using hM
    have hpos : 1 ≤ messages.length := List.length_pos.mpr hM
    obtain ⟨ranked, hfold, hrlen, hrmem⟩ :=
      rankedFold messages
        (extract question (messages.map msg_text) (min k messages.length))
        [] hidx
    refine ⟨(if ranked.isEmpty then messages.take k else ranked).take k,
      ?_, fun h => absurd h hM, fun _ => ?_, ?_⟩
    · simp only [retrieve_top, hE, Bool.false_eq_true, if_false,
        List.length_map]
      rw [hfold]
      rfl
    · by_cases hrE : ranked.isEmpty
      · have : ranked = [] := List.isEmpty_iff.mp hrE
        simp only [hrE, if_true, List.take_take, min_self, List.length_take]
        omega
      · have hrpos : 1 ≤ ranked.length :=
          List.length_pos.mpr (fun h => hrE (by simp [h]))
        have hrk : ranked.length ≤ k := by
          have h1 : ranked.length
              ≤ (extract question (messages.map msg_text)
                  (min k messages.length)).length := by
            simpa using hrlen
          exact le_trans (le_trans h1 hlen) (min_le_left _ _)
        simp only [hrE, Bool.false_eq_true, if_false, List.length_take]
        omega
    · intro m hm
      have hm' := (List.take_sublist _ _).subset hm
      by_cases hrE : ranked.isEmpty
      · rw [if_pos hrE] at hm'
        exact (List.take_sublist _ _).subset hm'
      · rw [if_neg hrE] at hm'
        rcases hrmem m hm' with h | h
        · cases h
        · exact h

/-- Witness for C6 at a concrete input: an extractor returning nothing, one
message, `k = 24` — the fallback returns that message. -/
theorem retrieve_top_props_witness :
    ∃ res, retrieve_top (fun _ _ _ => ([] : List (Int × Nat)))
        [exSnippet] "q" 24 = some res ∧
      ([exSnippet] = ([] : List Msg) → res = []) ∧
      (([exSnippet] : List Msg) ≠ [] → 1 ≤ res.length ∧ res.length ≤ 24) ∧
      ∀ m ∈ res, m ∈ [exSnippet] :=
  retrieve_top_props (fun _ _ _ => []) [exSnippet] "q" 24 (by decide)
    (by simp) (by simp)

/-! ## Burst-detection results (C2, C3, C4) -/

theorem lexLe_total : ∀ a b : List Nat, lexLe a b = true ∨ lexLe b a = true
  | [], _ => Or.inl rfl
  | _ :: _, [] => Or.inr rfl
  | a :: as, b :: bs => by
    rcases Nat.lt_trichotomy a b with h | h | h
    · left; simp [lexLe, h]
    · subst h
      rcases lexLe_total as bs with ih | ih
      · left; simp [lexLe, Nat.lt_irrefl, ih]
      · right; simp [lexLe, Nat.lt_irrefl, ih]
    · right; simp [lexLe, h]

theorem lexLe_trans :
    ∀ a b c : List Nat, lexLe a b = true → lexLe b c = true → lexLe a c = true
  | [], _, _, _, _ => rfl
  | _ :: _, [], _, h, _ => by simp [lexLe] at h
  | _ :: _, _ :: _, [], _, h => by simp [lexLe] at h
  | a :: as, b :: bs, c :: cs, h₁, h₂ => by
    simp only [lexLe] at h₁ h₂ ⊢
    split at h₁
    next hab =>
      split at h₂
      next hbc => simp [Nat.lt_trans hab hbc]
      next hbc =>
        split at h₂
        next => cases h₂
        next hcb =>
          have hac : a < c := by omega
          simp [hac]
    next hab =>
      split at h₁
      next => cases h₁
      next hba =>
        have habeq : a = b := by omega
        subst habeq
        split at h₂
        next hac => simp [hac]
        next hac =>
          split at h₂
          next => cases h₂
          next hca =>
            have h3 := lexLe_trans as bs cs h₁ h₂
            simp [hac, hca, h3]

instance : IsTotal Msg tsRel :=
  ⟨fun a b => lexLe_total (codesOf (rawTs a)) (codesOf (rawTs b))⟩

instance : IsTrans Msg tsRel :=
  ⟨fun a b c => lexLe_trans (codesOf (rawTs a)) (codesOf (rawTs b)) (codesOf (rawTs c))⟩

theorem omap_pair_fst {parse : String → Option PyDate} :
    ∀ {l : List Msg} {out : List (String × PyDate)},
      omap (fun m => (parse (rawTs m)).map (fun d => (rawTs m, d))) l = some out →
      out.map Prod.fst = l.map rawTs
  | [], out, h => by
    simp only [omap, Option.some.injEq] at h
    subst h
    rfl
  | m :: l, out, h => by
    simp only [omap] at h
    cases hp : parse (rawTs m) with
    | none => rw [hp] at h; cases h
    | some d =>
      rw [hp] at h
      cases hrec : omap (fun m => (parse (rawTs m)).map (fun d => (rawTs m, d))) l with
      | none => rw [hrec] at h; cases h
      | some out' =>
        rw [hrec] at h
        simp only [Option.map_some', Option.some.injEq] at h
        subst h
        simp [omap_pair_fst hrec]

theorem omap_pair_parse {parse : String → Option PyDate} :
    ∀ {l : List Msg} {out : List (String × PyDate)},
      omap (fun m => (parse (rawTs m)).map (fun d => (rawTs m, d))) l = some out →
      ∀ p ∈ out, parse p.1 = some p.2
  | [], out, h => by
    simp only [omap, Option.some.injEq] at h
    subst h
    intro p hp
    cases hp
  | m :: l, out, h => by
    simp only [omap] at h
    cases hp : parse (rawTs m) with
    | none => rw [hp] at h; cases h
    | some d =>
      rw [hp] at h
      cases hrec : omap (fun m => (parse (rawTs m)).map (fun d => (rawTs m, d))) l with
      | none => rw [hrec] at h; cases h
      | some out' =>
        rw [hrec] at h
        simp only [Option.map_some', Option.some.injEq] at h
        subst h
        intro q hq
        rcases List.mem_cons.mp hq with rfl | hq
        · exact hp
        · exact omap_pair_parse hrec q hq

theorem entriesOf_fst {parse : String → Option PyDate} {msgs : List Msg}
    {entries : List (String × PyDate)} (h : entriesOf parse msgs = some entries) :
    entries.map Prod.fst = (sortedOf msgs).map rawTs :=
  omap_pair_fst h

theorem entriesOf_parse {parse : String → Option PyDate} {msgs : List Msg}
    {entries : List (String × PyDate)} (h : entriesOf parse msgs = some entries) :
    ∀ p ∈ entries, parse p.1 = some p.2 :=
  omap_pair_parse h

theorem entriesOf_length {parse : String → Option PyDate} {msgs : List Msg}
    {entries : List (String × PyDate)} (h : entriesOf parse msgs = some entries) :
    entries.length = (validOf msgs).length := by
  have h1 := (omap_forall₂ h).length_eq
  have h2 : (sortedOf msgs).length = (validOf msgs).length :=
    (List.perm_insertionSort tsRel (validOf msgs)).length_eq
  omega

theorem entriesOf_sorted {parse : String → Option PyDate} {msgs : List Msg}
    {entries : List (String × PyDate)} (h : entriesOf parse msgs = some entries) :
    (entries.map Prod.fst).Pairwise (fun x y => strLe x y = true) := by
  rw [entriesOf_fst h]
  have hs : List.Sorted tsRel (sortedOf msgs) :=
    List.sorted_insertionSort tsRel (validOf msgs)
  exact List.pairwise_map.mpr hs

theorem entriesOf_none {parse : String → Option PyDate} {msgs : List Msg} {m : Msg}
    (hm : m ∈ validOf msgs) (hbad : parse (rawTs m) = none) :
    entriesOf parse msgs = none := by
  refine omap_eq_none ((List.perm_insertionSort tsRel (validOf msgs)).mem_iff.mpr hm) ?_
  rw [hbad]
  rfl

theorem pyGet_mem {l : List α} {i : Int} {x : α} (h : pyGet l i = some x) :
    x ∈ l := by
  unfold pyGet at h
  split at h
  · exact List.get?_mem h
  · split at h
    · exact List.get?_mem h
    · cases h

theorem pyGet_nat {l : List α} {i : Nat} {x : α}
    (h : pyGet l (i : Int) = some x) : l.get? i = some x := by
  unfold pyGet at h
  rw [if_pos (by omega)] at h
  simpa using h

theorem pyGet_lt {l : List α} {t : Int} {x : α} (h : pyGet l t = some x)
    (ht : 0 ≤ t) : t < (l.length : Int) := by
  unfold pyGet at h
  rw [if_pos ht] at h
  obtain ⟨hlt, -⟩ := List.get?_eq_some.mp h
  omega

theorem scanBurst_elim {entries : List (String × PyDate)} {k w : Int} :
    ∀ {l : List Nat} {r}, scanBurst entries k w l = some (some r) →
      ∃ (l₁ : List Nat) (i : Nat) (l₂ : List Nat), l = l₁ ++ i :: l₂ ∧
        (∃ ps pe, pyGet entries (i : Int) = some ps ∧
          pyGet entries ((i : Int) + k - 1) = some pe ∧
          pe.2.seconds - ps.2.seconds ≤ w ∧ r = (ps, pe)) ∧
        ∀ (j : Nat), j ∈ l₁ → ∃ qs qe, pyGet entries (j : Int) = some qs ∧
          pyGet entries ((j : Int) + k - 1) = some qe ∧
          w < qe.2.seconds - qs.2.seconds
  | [], r, h => by simp [scanBurst] at h
  | i :: rest, r, h => by
    cases hps : pyGet entries (i : Int) with
    | none =>
      simp only [scanBurst, hps] at h
      cases h
    | some ps =>
      cases hpe : pyGet entries ((i : Int) + k - 1) with
      | none =>
        simp only [scanBurst, hps, hpe] at h
        cases h
      | some pe =>
        simp only [scanBurst, hps, hpe] at h
        by_cases htest : pe.2.seconds - ps.2.seconds ≤ w
        · rw [if_pos htest] at h
          simp only [Option.some.injEq] at h
          exact ⟨[], i, rest, rfl, ⟨ps, pe, hps, hpe, htest, h.symm⟩,
            fun j hj => absurd hj (List.not_mem_nil j)⟩
        · rw [if_neg htest] at h
          obtain ⟨l₁, i', l₂, rfl, hwin, hfail⟩ := scanBurst_elim h
          refine ⟨i :: l₁, i', l₂, rfl, hwin, fun j hj => ?_⟩
          rcases List.mem_cons.mp hj with rfl | hj
          · exact ⟨ps, pe, hps, hpe, by omega⟩
          · exact hfail j hj

theorem range_split {n : Nat} {l₁ l₂ : List Nat} {i : Nat}
    (h : List.range n = l₁ ++ i :: l₂) : l₁ = List.range i ∧ i < n := by
  have hi : i ∈ List.range n := by
    rw [h]
    exact List.mem_append_right _ (List.mem_cons_self _ _)
  have hin : i < n := List.mem_range.mp hi
  have hget : (List.range n).get? l₁.length = some i := by
    rw [h, List.get?_append_right le_rfl]
    simp
  have hlen : l₁.length < n := by
    obtain ⟨hlt, -⟩ := List.get?_eq_some.mp hget
    simpa using hlt
  have hieq : i = l₁.length := by
    have hr := List.get?_range hlen
    rw [hget] at hr
    exact (Option.some.injEq _ _).mp hr
  constructor
  · have htake : l₁ = (List.range n).take l₁.length := by
      rw [h, List.take_left]
    rw [htake, List.take_range, hieq]
    congr 1
    omega
  · exact hin

theorem detectUser_elim {parse : String → Option PyDate} {k w : Int}
    {user : String} {msgs : List Msg} {b : Burst}
    (h : detectUser parse k w user msgs = some (some b)) :
    ∃ entries, entriesOf parse msgs = some entries ∧
      ∃ (l₁ : List Nat) (i : Nat) (l₂ : List Nat),
        List.range (((entries.length : Int) - k + 1).toNat) = l₁ ++ i :: l₂ ∧
        ∃ ps pe, pyGet entries (i : Int) = some ps ∧
          pyGet entries ((i : Int) + k - 1) = some pe ∧
          pe.2.seconds - ps.2.seconds ≤ w ∧
          b = ⟨user, k, ps.1, pe.1⟩ ∧
          ∀ (j : Nat), j ∈ l₁ → ∃ qs qe, pyGet entries (j : Int) = some qs ∧
            pyGet entries ((j : Int) + k - 1) = some qe ∧
            w < qe.2.seconds - qs.2.seconds := by
  unfold detectUser at h
  split at h
  · exact absurd h (by simp)
  · cases he : entriesOf parse msgs with
    | none => simp [he] at h
    | some entries =>
      simp only [he] at h
      cases hs : scanBurst entries k w
          (List.range (((entries.length : Int) - k + 1).toNat)) with
      | none => simp [hs] at h
      | some o =>
        simp only [hs] at h
        cases o with
        | none => simp at h
        | some r =>
          obtain ⟨ps, pe⟩ := r
          simp only [Option.some.injEq] at h
          obtain ⟨l₁, i, l₂, hsplit, ⟨ps', pe', hps, hpe, htest, hr⟩, hfail⟩ :=
            scanBurst_elim hs
          have h1 : ps = ps' := congrArg Prod.fst hr
          have h2 : pe = pe' := congrArg Prod.snd hr
          subst h1
          subst h2
          exact ⟨entries, rfl, l₁, i, l₂, hsplit, ps, pe, hps, hpe, htest,
            h.symm, hfail⟩

theorem detect_elim {parse : String → Option PyDate} {messages : List Msg}
    {k w : Int} {bursts : List Burst} {b : Burst}
    (hd : detect_burst_messages parse messages k w = some bursts)
    (hb : b ∈ bursts) :
    ∃ u ms, (u, ms) ∈ groupByUser messages ∧
      detectUser parse k w u ms = some (some b) := by
  unfold detect_burst_messages at hd
  cases ho : omap (fun g => detectUser parse k w g.1 g.2) (groupByUser messages) with
  | none => rw [ho] at hd; cases hd
  | some opts =>
    rw [ho] at hd
    simp only [Option.map_some', Option.some.injEq] at hd
    subst hd
    obtain ⟨o, homem, hid⟩ := List.mem_filterMap.mp hb
    have hosome : o = some b := hid
    subst hosome
    obtain ⟨g, hg, hfg⟩ := forall₂_mem_right (omap_forall₂ ho) homem
    exact ⟨g.1, g.2, hg, hfg⟩

/-- Every group of `groupByUser` is the filter of the messages by its key. -/
theorem mem_groupByUser {messages : List Msg} {g : String × List Msg}
    (h : g ∈ groupByUser messages) :
    g.2 = messages.filter (fun m => userKey m == g.1) := by
  obtain ⟨u, _, rfl⟩ := List.mem_map.mp h
  rfl

theorem groupKeys_nodup (messages : List Msg) :
    ((groupByUser messages).map Prod.fst).Nodup := by
  have heq : (groupByUser messages).map Prod.fst
      = keysInOrder (messages.map userKey) := by
    unfold groupByUser
    rw [List.map_map]
    exact List.map_id _
  rw [heq]
  exact keysInOrder_nodup _

/-- There is a group for every message's key. -/
theorem groupByUser_exists {messages : List Msg} {m : Msg} (hm : m ∈ messages) :
    (userKey m, messages.filter (fun x => userKey x == userKey m))
      ∈ groupByUser messages := by
  unfold groupByUser
  refine List.mem_map.mpr ⟨userKey m, ?_, rfl⟩
  exact keysInOrder_mem.mpr (List.mem_map.mpr ⟨m, hm, rfl⟩)

theorem users_sublist {parse : String → Option PyDate} {k w : Int}
    {groups : List (String × List Msg)} {opts : List (Option Burst)}
    (hfa : List.Forall₂ (fun g o => detectUser parse k w g.1 g.2 = some o)
      groups opts) :
    ((opts.filterMap id).map Burst.user).Sublist (groups.map Prod.fst) := by
  induction hfa with
  | nil => simp
  | cons hf hrest ih =>
    rename_i g o groups' opts'
    cases o with
    | none =>
      simp only [List.filterMap_cons, id, List.map_cons]
      exact List.Sublist.cons _ ih
    | some b =>
      have huser : b.user = g.1 := by
        obtain ⟨entries, _, l₁, i, l₂, _, ps, pe, _, _, _, hbe, _⟩ :=
          detectUser_elim hf
        rw [hbe]
      simp only [List.filterMap_cons, id, List.map_cons, huser]
      exact List.Sublist.cons₂ _ ih

/-- **C3** — `detect_burst_messages` (when it completes) emits at most one
record per user; each record has `count = threshold_count`, its end and
start timestamps parse to instants at most `window_seconds` apart, and its
user has at least `threshold_count` messages carrying a (truthy, hence in
particular present) timestamp. -/
theorem detect_burst_props (parse : String → Option PyDate)
    (messages : List Msg) (k w : Int) (bursts : List Burst)
    (h : detect_burst_messages parse messages k w = some bursts) :
    bursts.Pairwise (fun b₁ b₂ => b₁.user ≠ b₂.user) ∧
    ∀ b ∈ bursts, b.count = k ∧
      (∃ ds de, parse b.start = some ds ∧ parse b.endTs = some de ∧
        de.seconds - ds.seconds ≤ w) ∧
      k ≤ ((messages.filter
        (fun m => userKey m == b.user && hasTs m)).length : Int) := by
  constructor
  · unfold detect_burst_messages at h
    cases ho : omap (fun g => detectUser parse k w g.1 g.2)
        (groupByUser messages) with
    | none => rw [ho] at h; cases h
    | some opts =>
      rw [ho] at h
      simp only [Option.map_some', Option.some.injEq] at h
      subst h
      have hsub := users_sublist (omap_forall₂ ho)
      have hnd : ((opts.filterMap id).map Burst.user).Nodup :=
        hsub.nodup (groupKeys_nodup messages)
      exact List.pairwise_map.mp hnd
  · intro b hb
    obtain ⟨u, ms, hg, hdu⟩ := detect_elim h hb
    obtain ⟨entries, he, l₁, i, l₂, hsplit, ps, pe, hps, hpe, htest, hbe,
      hfail⟩ := detectUser_elim hdu
    have hms : ms = messages.filter (fun m => userKey m == u) :=
      mem_groupByUser hg
    subst hbe
    refine ⟨rfl, ?_, ?_⟩
    · exact ⟨ps.2, pe.2, entriesOf_parse he ps (pyGet_mem hps),
        entriesOf_parse he pe (pyGet_mem hpe), htest⟩
    · have hlenv : entries.length = (validOf ms).length := entriesOf_length he
      have hval : validOf ms
          = messages.filter (fun m => userKey m == u && hasTs m) := by
        rw [hms]
        unfold validOf
        rw [List.filter_filter]
        exact List.filter_congr (fun a _ => Bool.and_comm _ _)
      by_cases hk : k ≤ 0
      · have : (0 : Int) ≤ ((messages.filter
            (fun m => userKey m == u && hasTs m)).length : Int) :=
          Int.natCast_nonneg _
        omega
      · have hidx : (0 : Int) ≤ (i : Int) + k - 1 := by omega
        have hlt := pyGet_lt hpe hidx
        rw [← hval, ← hlenv]
        omega

/-- C3/C4 demo parse: timestamps `"1"` … `"5"` parse to seconds 1 … 5. -/
def demoParse : String → Option PyDate := fun s =>
  if s = "1" then some ⟨1, 2024⟩
  else if s = "2" then some ⟨2, 2024⟩
  else if s = "3" then some ⟨3, 2024⟩
  else if s = "4" then some ⟨4, 2024⟩
  else if s = "5" then some ⟨5, 2024⟩
  else none

/-- C3 demo messages: user `"A"` sends 5 messages at seconds 1 … 5. -/
def demoMsgs : List Msg :=
  [{ id := 1, member_name := some "A", text := some "x", timestamp := some "1" },
   { id := 2, member_name := some "A", text := some "x", timestamp := some "2" },
   { id := 3, member_name := some "A", text := some "x", timestamp := some "3" },
   { id := 4, member_name := some "A", text := some "x", timestamp := some "4" },
   { id := 5, member_name := some "A", text := some "x", timestamp := some "5" }]

/-- Witness for C3 at a concrete input. -/
theorem detect_burst_props_witness :
    ([⟨"A", 5, "1", "5"⟩] : List Burst).Pairwise
      (fun b₁ b₂ => b₁.user ≠ b₂.user) ∧
    ∀ b ∈ ([⟨"A", 5, "1", "5"⟩] : List Burst), b.count = 5 ∧
      (∃ ds de, demoParse b.start = some ds ∧ demoParse b.endTs = some de ∧
        de.seconds - ds.seconds ≤ 30) ∧
      (5 : Int) ≤ ((demoMsgs.filter
        (fun m => userKey m == b.user && hasTs m)).length : Int) :=
  detect_burst_props demoParse demoMsgs 5 30 [⟨"A", 5, "1", "5"⟩] (by decide)

/-- Comparison by parsed instant, as the spec's words order the messages. -/
def secRel (a b : String × PyDate) : Prop :=
  a.2.seconds ≤ b.2.seconds

instance : DecidableRel secRel := fun a b =>
  inferInstanceAs (Decidable (a.2.seconds ≤ b.2.seconds))

/-- Modelled from the spec, for comparison with C4's words "parse and sort
remaining by timestamp ascending": identical to the code's detector except
that each user's timestamped messages are parsed first and then sorted by
the parsed instant, not by the raw timestamp string. -/
def detectUserChron (parse : String → Option PyDate) (k w : Int) (user : String)
    (msgs : List Msg) : Option (Option Burst) :=
  if (validOf msgs).isEmpty then some none
  else
    match omap (fun m => (parse (rawTs m)).map (fun d => (rawTs m, d)))
        (validOf msgs) with
    | none => none
    | some es =>
      let entries := List.insertionSort secRel es
      match scanBurst entries k w
          (List.range (((entries.length : Int) - k + 1).toNat)) with
      | none => none
      | some none => some none
      | some (some (ps, pe)) => some (some ⟨user, k, ps.1, pe.1⟩)

/-- Modelled from the spec: the whole burst scan under the spec's
parsed-chronological ordering. -/
def detect_burst_chron (parse : String → Option PyDate) (messages : List Msg)
    (threshold_count : Int := 5) (time_window_seconds : Int := 30) :
    Option (List Burst) :=
  (omap (fun g => detectUserChron parse threshold_count time_window_seconds g.1 g.2)
      (groupByUser messages)).map (fun opts => opts.filterMap id)

/-- C4 demo parse: `"9"` parses to second 9 and `"10"` to second 10, while
`"10" < "9"` as strings — dateutil behaves this way on, e.g., `2024-1-9`
versus `2024-1-10`. -/
def cexParse : String → Option PyDate := fun s =>
  if s = "9" then some ⟨9, 2024⟩
  else if s = "10" then some ⟨10, 2024⟩
  else none

/-- C4 demo messages: one user, timestamps `"10"` then `"9"`. -/
def cexMsgs : List Msg :=
  [{ id := 1, member_name := some "A", text := some "x", timestamp := some "10" },
   { id := 2, member_name := some "A", text := some "x", timestamp := some "9" }]

/-- **C4 counterexample** — the code sorts by the raw timestamp string
(`"10"` before `"9"`), so with `threshold_count = 2` and
`window_seconds = 0` it emits a record whose window spans `9 - 10 = -1 ≤ 0`
seconds, its end chronologically before its start; in the claim's
parsed-chronological order the only window spans `10 - 9 = 1 > 0` seconds
and nothing would be emitted. -/
theorem burst_sort_order_counterexample :
    detect_burst_messages cexParse cexMsgs 2 0 = some [⟨"A", 2, "10", "9"⟩] ∧
    detect_burst_chron cexParse cexMsgs 2 0 = some [] :=
  ⟨by decide, by decide⟩

/-- **C4 (amended)** — within each user's group the code drops messages
whose timestamp is absent or empty and sorts the rest in ascending order of
the RAW timestamp string (not of the parsed instants); the emitted record
comes from the first window position `i`, in that string order, whose
`threshold_count` consecutive entries have parsed time span at most
`window_seconds`, all earlier window positions having failed the span
test. -/
theorem burst_first_window_amended (parse : String → Option PyDate)
    (messages : List Msg) (k w : Int) (bursts : List Burst) (b : Burst)
    (h : detect_burst_messages parse messages k w = some bursts)
    (hb : b ∈ bursts) :
    ∃ (entries : List (String × PyDate)) (i : Nat),
      entriesOf parse (messages.filter (fun m => userKey m == b.user))
        = some entries ∧
      (entries.map Prod.fst).Pairwise (fun x y => strLe x y = true) ∧
      i < ((entries.length : Int) - k + 1).toNat ∧
      (∃ ps pe, pyGet entries (i : Int) = some ps ∧
        pyGet entries ((i : Int) + k - 1) = some pe ∧
        pe.2.seconds - ps.2.seconds ≤ w ∧ b.start = ps.1 ∧ b.endTs = pe.1) ∧
      ∀ (j : Nat), j < i → ∃ qs qe, pyGet entries (j : Int) = some qs ∧
        pyGet entries ((j : Int) + k - 1) = some qe ∧
        w < qe.2.seconds - qs.2.seconds := by
  obtain ⟨u, ms, hg, hdu⟩ := detect_elim h hb
  obtain ⟨entries, he, l₁, i, l₂, hsplit, ps, pe, hps, hpe, htest, hbe,
    hfail⟩ := detectUser_elim hdu
  have hms : ms = messages.filter (fun m => userKey m == u) :=
    mem_groupByUser hg
  obtain ⟨hrange, hin⟩ := range_split hsplit
  subst hbe
  refine ⟨entries, i, by rwa [← hms], entriesOf_sorted he, hin,
    ⟨ps, pe, hps, hpe, htest, rfl, rfl⟩, fun j hj => ?_⟩
  exact hfail j (hrange ▸ List.mem_range.mpr hj)

/-- Witness for the amended C4 at a concrete input. -/
theorem burst_first_window_amended_witness :
    ∃ (entries : List (String × PyDate)) (i : Nat),
      entriesOf cexParse
          (cexMsgs.filter (fun m => userKey m == ("A" : String)))
        = some entries ∧
      (entries.map Prod.fst).Pairwise (fun x y => strLe x y = true) ∧
      i < ((entries.length : Int) - 2 + 1).toNat ∧
      (∃ ps pe, pyGet entries (i : Int) = some ps ∧
        pyGet entries ((i : Int) + 2 - 1) = some pe ∧
        pe.2.seconds - ps.2.seconds ≤ 0 ∧ ("10" : String) = ps.1 ∧
        ("9" : String) = pe.1) ∧
      ∀ (j : Nat), j < i → ∃ qs qe, pyGet entries (j : Int) = some qs ∧
        pyGet entries ((j : Int) + 2 - 1) = some qe ∧
        (0 : Int) < qe.2.seconds - qs.2.seconds :=
  burst_first_window_amended cexParse cexMsgs 2 0 [⟨"A", 2, "10", "9"⟩]
    ⟨"A", 2, "10", "9"⟩ (by decide) (by decide)

theorem detectUser_none {parse : String → Option PyDate} {k w : Int}
    {u : String} {ms : List Msg} {m : Msg} (hmem : m ∈ validOf ms)
    (hbad : parse (rawTs m) = none) : detectUser parse k w u ms = none := by
  have hne : (validOf ms).isEmpty = false := by
    cases hE : (validOf ms).isEmpty with
    | false => rfl
    | true => exact absurd (List.isEmpty_iff.mp hE ▸ hmem) (List.not_mem_nil m)
  unfold detectUser
  rw [if_neg (by simp [hne])]
  simp only [entriesOf_none hmem hbad]

/-- **C2 (amended)** — a present-but-unparseable timestamp is skipped only by
the impossible-timestamp check; `detect_burst_messages` parses every truthy
timestamp unguarded, so such a message makes the burst scan raise (the
exception escapes the whole function). -/
theorem malformed_timestamp_amended (parse : String → Option PyDate)
    (messages : List Msg) (k w nowYear : Int) (m : Msg)
    (hm : m ∈ messages) (hts : rawTs m ≠ "")
    (hbad : parse (rawTs m) = none) :
    detect_burst_messages parse messages k w = none ∧
    m ∉ impossible_times parse nowYear messages := by
  constructor
  · have hg := groupByUser_exists hm
    have hmf : m ∈ messages.filter (fun x => userKey x == userKey m) :=
      List.mem_filter.mpr ⟨hm, by simp⟩
    have hmv : m ∈ validOf (messages.filter (fun x => userKey x == userKey m)) :=
      List.mem_filter.mpr ⟨hmf, by simpa [hasTs, bne_iff_ne] using hts⟩
    have hnone : detectUser parse k w (userKey m)
        (messages.filter (fun x => userKey x == userKey m)) = none :=
      detectUser_none hmv hbad
    unfold detect_burst_messages
    rw [omap_eq_none hg hnone]
    rfl
  · intro hmem
    rw [impossible_times_eq] at hmem
    have := (List.mem_filter.mp hmem).2
    unfold codeImpossible at this
    rw [if_neg hts, hbad] at this
    cases this

/-- C2 demo message: a present but unparseable timestamp. -/
def mzz : Msg :=
  { id := 1, member_name := some "A", text := some "hi",
    timestamp := some "zz" }

/-- **C2 counterexample** — on a message whose timestamp is present but
unparseable, the burst scan raises (modelled as `none`) instead of skipping
it, even though the impossible-timestamp check does skip it and complete. -/
theorem burst_malformed_crash_counterexample :
    mzz.timestamp = some "zz" ∧
    detect_burst_messages (fun _ => none) [mzz] 5 30 = none ∧
    impossible_times (fun _ => none) 2026 [mzz] = [] :=
  ⟨rfl, by decide, by decide⟩

/-- Witness for the amended C2 at a concrete input. -/
theorem malformed_timestamp_amended_witness :
    detect_burst_messages (fun _ => none) [mzz] 5 30 = none ∧
    mzz ∉ impossible_times (fun _ => none) 2026 [mzz] :=
  malformed_timestamp_amended (fun _ => none) [mzz] 5 30 2026 mzz
    (by decide) (by decide) rfl

/-! ## Fetcher results (C1) -/

theorem fetchGo_spec (src : Nat → FetchResp) (limit : Nat) :
    ∀ (fuel call skip : Nat) (acc : List RawItem),
      (fetchGo src limit fuel call skip acc).2.length ≤ fuel ∧
      (fetchGo src limit fuel call skip acc).1
        = acc ++ ((fetchGo src limit fuel call skip acc).2.map
            (fun p => pageItems p.2)).join ∧
      (fuel ≠ 0 →
        (fetchGo src limit fuel call skip acc).2.head? = some (skip, src call)) ∧
      List.Chain' (traceStep limit) (fetchGo src limit fuel call skip acc).2 ∧
      (∀ p, (fetchGo src limit fuel call skip acc).2.getLast? = some p →
        (fetchGo src limit fuel call skip acc).2.length = fuel ∨
          stopReason limit p) ∧
      (∀ (j : Nat) (p : Nat × FetchResp),
        (fetchGo src limit fuel call skip acc).2.get? j = some p →
        p.2 = src (call + j))
  | 0, call, skip, acc => by
    refine ⟨by simp [fetchGo], by simp [fetchGo], fun h => absurd rfl h,
      by simp [fetchGo], ?_, ?_⟩
    · intro p hp
      simp [fetchGo] at hp
    · intro j p hp
      simp [fetchGo] at hp
  | fuel + 1, call, skip, acc => by
    cases h : src call with
    | s403 =>
      have heq : fetchGo src limit (fuel + 1) call skip acc
          = (acc, [(skip, FetchResp.s403)]) := by
        simp only [fetchGo, h]
      rw [heq]
      refine ⟨by simp, by simp [pageItems], fun _ => rfl,
        List.chain'_singleton _, ?_, ?_⟩
      · intro p hp
        simp only [List.getLast?_singleton, Option.some.injEq] at hp
        subst hp
        exact Or.inr (Or.inr (Or.inl rfl))
      · intro j p hp
        cases j with
        | zero =>
          simp only [List.get?_cons_zero, Option.some.injEq] at hp
          subst hp
          rw [Nat.add_zero, h]
        | succ j => simp at hp
    | s401 =>
      have heq : fetchGo src limit (fuel + 1) call skip acc
          = (acc, [(skip, FetchResp.s401)]) := by
        simp only [fetchGo, h]
      rw [heq]
      refine ⟨by simp, by simp [pageItems], fun _ => rfl,
        List.chain'_singleton _, ?_, ?_⟩
      · intro p hp
        simp only [List.getLast?_singleton, Option.some.injEq] at hp
        subst hp
        exact Or.inr (Or.inl rfl)
      · intro j p hp
        cases j with
        | zero =>
          simp only [List.get?_cons_zero, Option.some.injEq] at hp
          subst hp
          rw [Nat.add_zero, h]
        | succ j => simp at hp
    | exc =>
      have heq : fetchGo src limit (fuel + 1) call skip acc
          = ((fetchGo src limit fuel (call + 1) skip acc).1,
              (skip, FetchResp.exc)
                :: (fetchGo src limit fuel (call + 1) skip acc).2) := by
        simp only [fetchGo, h]
      obtain ⟨ih1, ih2, ih3, ih4, ih5, ih6⟩ :=
        fetchGo_spec src limit fuel (call + 1) skip acc
      rw [heq]
      refine ⟨by simpa using ih1, ?_, fun _ => rfl, ?_, ?_, ?_⟩
      · simpa [pageItems] using ih2
      · rw [List.chain'_cons']
        refine ⟨?_, ih4⟩
        intro q hq
        have hfz : fuel ≠ 0 := by
          intro hf
          subst hf
          have hnil : (fetchGo src limit 0 (call + 1) skip acc).2 = [] := by
            simp [fetchGo]
          rw [hnil] at hq
          cases hq
        rw [ih3 hfz] at hq
        cases hq
        exact Or.inl ⟨rfl, rfl⟩
      · intro p hp
        cases hrec : (fetchGo src limit fuel (call + 1) skip acc).2 with
        | nil =>
          rw [hrec] at hp
          simp only [List.getLast?_singleton, Option.some.injEq] at hp
          have hf0 : fuel = 0 := by
            by_contra hfz
            have hh := ih3 hfz
            rw [hrec] at hh
            cases hh
          subst hf0
          left
          simp [hrec]
        | cons q rest =>
          rw [hrec] at hp
          rw [List.getLast?_cons_cons] at hp
          have hres := ih5 p (by rw [hrec]; exact hp)
          rcases hres with hl | hs
          · left
            simp only [List.length_cons, hrec] at hl ⊢
            omega
          · exact Or.inr hs
      · intro j p hp
        cases j with
        | zero =>
          simp only [List.get?_cons_zero, Option.some.injEq] at hp
          subst hp
          rw [Nat.add_zero, h]
        | succ j =>
          simp only [List.get?_cons_succ] at hp
          have hres := ih6 j p hp
          rw [hres]
          congr 1
          omega
    | ok items =>
      by_cases hempty : items.isEmpty
      · have heq : fetchGo src limit (fuel + 1) call skip acc
            = (acc, [(skip, FetchResp.ok items)]) := by
          simp only [fetchGo, h, hempty, if_true]
        have hitems : items = [] := List.isEmpty_iff.mp hempty
        rw [heq]
        refine ⟨by simp, by simp [pageItems, hitems], fun _ => rfl,
          List.chain'_singleton _, ?_, ?_⟩
        · intro p hp
          simp only [List.getLast?_singleton, Option.some.injEq] at hp
          subst hp
          exact Or.inr (Or.inr (Or.inr (Or.inl (by rw [hitems]))))
        · intro j p hp
          cases j with
          | zero =>
            simp only [List.get?_cons_zero, Option.some.injEq] at hp
            subst hp
            rw [Nat.add_zero, h]
          | succ j => simp at hp
      · by_cases hlim : limit ≤ skip + 100
        · have heq : fetchGo src limit (fuel + 1) call skip acc
              = (acc ++ items, [(skip, FetchResp.ok items)]) := by
            simp only [fetchGo, h, hempty, Bool.false_eq_true, if_false,
              if_pos hlim]
          rw [heq]
          refine ⟨by simp, by simp [pageItems], fun _ => rfl,
            List.chain'_singleton _, ?_, ?_⟩
          · intro p hp
            simp only [List.getLast?_singleton, Option.some.injEq] at hp
            subst hp
            exact Or.inr (Or.inr (Or.inr (Or.inr ⟨items, rfl, hlim⟩)))
          · intro j p hp
            cases j with
            | zero =>
              simp only [List.get?_cons_zero, Option.some.injEq] at hp
              subst hp
              rw [Nat.add_zero, h]
            | succ j => simp at hp
        · have heq : fetchGo src limit (fuel + 1) call skip acc
              = ((fetchGo src limit fuel (call + 1) (skip + 100) (acc ++ items)).1,
                  (skip, FetchResp.ok items)
                    :: (fetchGo src limit fuel (call + 1) (skip + 100)
                        (acc ++ items)).2) := by
            simp only [fetchGo, h, hempty, Bool.false_eq_true, if_false,
              if_neg hlim]
          obtain ⟨ih1, ih2, ih3, ih4, ih5, ih6⟩ :=
            fetchGo_spec src limit fuel (call + 1) (skip + 100) (acc ++ items)
          rw [heq]
          have hne : items ≠ [] := by
            intro hit
            rw [hit] at hempty
            exact hempty rfl
          refine ⟨by simpa using ih1, ?_, fun _ => rfl, ?_, ?_, ?_⟩
          · simp [pageItems, ih2]
          · rw [List.chain'_cons']
            refine ⟨?_, ih4⟩
            intro q hq
            have hfz : fuel ≠ 0 := by
              intro hf
              subst hf
              have hnil : (fetchGo src limit 0 (call + 1) (skip + 100)
                  (acc ++ items)).2 = [] := by
                simp [fetchGo]
              rw [hnil] at hq
              cases hq
            rw [ih3 hfz] at hq
            cases hq
            exact Or.inr ⟨items, rfl, hne, rfl, by omega⟩
          · intro p hp
            cases hrec : (fetchGo src limit fuel (call + 1) (skip + 100)
                (acc ++ items)).2 with
            | nil =>
              rw [hrec] at hp
              simp only [List.getLast?_singleton, Option.some.injEq] at hp
              have hf0 : fuel = 0 := by
                by_contra hfz
                have hh := ih3 hfz
                rw [hrec] at hh
                cases hh
              subst hf0
              left
              simp [hrec]
            | cons q rest =>
              rw [hrec] at hp
              rw [List.getLast?_cons_cons] at hp
              have hres := ih5 p (by rw [hrec]; exact hp)
              rcases hres with hl | hs
              · left
                simp only [List.length_cons, hrec] at hl ⊢
                omega
              · exact Or.inr hs
          · intro j p hp
            cases j with
            | zero =>
              simp only [List.get?_cons_zero, Option.some.injEq] at hp
              subst hp
              rw [Nat.add_zero, h]
            | succ j =>
              simp only [List.get?_cons_succ] at hp
              have hres := ih6 j p hp
              rw [hres]
              congr 1
              omega

/-- **C1 (amended)** — `fetch_messages` runs ONE loop of at most 3 request
iterations, a budget shared between pages and retries (not 3 retries per
page): the first request is at offset 0; each non-empty page advances the
offset by 100 and continues only while the new offset is below `limit`; an
exception repeats the same offset and consumes one of the 3 iterations;
when the loop ends before the budget is exhausted, the last response was a
401, a 403, an empty page, or a non-empty page that pushed the offset to
`limit` (the stop test compares the OFFSET with `limit`, not the accumulated
item count); the accumulated items are exactly the concatenation of the
pages received, in order. -/
theorem fetch_messages_amended (src : Nat → FetchResp) (limit : Nat) :
    (fetch_messages src limit).2.length ≤ 3 ∧
    (fetch_messages src limit).1
      = ((fetch_messages src limit).2.map (fun p => pageItems p.2)).join ∧
    (fetch_messages src limit).2.head? = some (0, src 0) ∧
    List.Chain' (traceStep limit) (fetch_messages src limit).2 ∧
    (∀ p, (fetch_messages src limit).2.getLast? = some p →
      (fetch_messages src limit).2.length = 3 ∨ stopReason limit p) ∧
    (∀ (j : Nat) (p : Nat × FetchResp),
      (fetch_messages src limit).2.get? j = some p → p.2 = src j) := by
  obtain ⟨h1, h2, h3, h4, h5, h6⟩ := fetchGo_spec src limit 3 0 0 []
  exact ⟨h1, by simpa using h2, h3 (by omega), h4, h5,
    fun j p hp => by simpa using h6 j p hp⟩

/-- A single-item page, for the C1 counterexample. -/
def oneItem : RawItem := { id := 7 }

/-- **C1 counterexample** — C1 says paging continues until an empty page or
until the accumulated count reaches `limit`, a page stopping early only
after 3 failed attempts of its own.  Against a source that always answers a
non-empty page (never an exception, never a 401/403, never an empty page)
with `limit = 500`, that predicts at least 500 accumulated items; the code
stops after its 3 shared loop iterations with 3 items. -/
theorem fetch_pagination_counterexample :
    ¬ (∀ (src : Nat → FetchResp) (limit : Nat),
        (∀ n, ∃ items, src n = FetchResp.ok items ∧ items ≠ []) →
        limit ≤ (fetch_messages src limit).1.length) := by
  intro hclaim
  have h := hclaim (fun _ => .ok [oneItem]) 500
    (fun _ => ⟨[oneItem], rfl, by simp⟩)
  have h3 : (fetch_messages (fun _ => FetchResp.ok [oneItem]) 500).1.length
      = 3 := by decide
  omega

/-- Witness for the amended C1 at a concrete input. -/
theorem fetch_messages_amended_witness :
    (fetch_messages (fun _ => FetchResp.ok [oneItem]) 500).2.length ≤ 3 ∧
    (fetch_messages (fun _ => FetchResp.ok [oneItem]) 500).1
      = ((fetch_messages (fun _ => FetchResp.ok [oneItem]) 500).2.map
          (fun p => pageItems p.2)).join ∧
    (fetch_messages (fun _ => FetchResp.ok [oneItem]) 500).2.head?
      = some (0, FetchResp.ok [oneItem]) ∧
    List.Chain' (traceStep 500)
      (fetch_messages (fun _ => FetchResp.ok [oneItem]) 500).2 ∧
    (∀ p, (fetch_messages (fun _ => FetchResp.ok [oneItem]) 500).2.getLast?
        = some p →
      (fetch_messages (fun _ => FetchResp.ok [oneItem]) 500).2.length = 3 ∨
        stopReason 500 p) ∧
    (∀ (j : Nat) (p : Nat × FetchResp),
      (fetch_messages (fun _ => FetchResp.ok [oneItem]) 500).2.get? j = some p →
      p.2 = FetchResp.ok [oneItem]) :=
  fetch_messages_amended (fun _ => FetchResp.ok [oneItem]) 500

end QA
